import Mathlib

/-!
Verification of the retrieval-and-fallback chat backend.

Shallow embedding of the core logic of the repository:
  - src/pages/api/chat.ts : crawlWebsite, fetchMultiplePages, the chat handler
    (scoring, filtering, fallback orchestration, response shaping);
  - src/utils/makechain.ts : combineDocumentsFn.

Modelling conventions.
  - JavaScript strings are `List Char`.  JavaScript `Set` objects are lists kept
    duplicate-free in insertion order, which matches `Set` iteration order and
    `Array.from`.
  - External collaborators (the Pinecone retriever, the generation model, the
    headless browser page fetches) are function parameters.  A fetch that throws
    is `Option.none` / `Except.error`.
  - The WHATWG `new URL` constructor is modelled for hierarchical
    `scheme://host...` URLs with alphabetic schemes (the subset exercised by the
    crawler; opaque schemes such as `mailto:` resolve to `none`, which the
    crawler drops exactly as the real code drops them via its origin check).
  - Machine integers: the chunking loop index is `Int` as in JavaScript
    (it can go negative when `overlap > chunkSize`); sizes are `Nat`.
-/

/-! ## JavaScript string primitives -/

/-- JavaScript `String.prototype.trim`: remove leading and trailing whitespace. -/
def jsTrim (l : List Char) : List Char :=
  ((l.dropWhile Char.isWhitespace).reverse.dropWhile Char.isWhitespace).reverse

/-- JavaScript `replace(/\s+/g, " ")`: collapse every maximal whitespace run to a
single space.  chat.ts line 147. -/
def collapseWS (l : List Char) : List Char :=
  l.foldr
    (fun c acc =>
      if c.isWhitespace then (if acc.head? = some ' ' then acc else ' ' :: acc)
      else c :: acc) []

/-- `pageText.replace(/\s+/g, " ").trim()` — chat.ts line 147. -/
def cleanText (l : List Char) : List Char := jsTrim (collapseWS l)

/-- JavaScript `split` on a character class: split at every separator character,
producing (possibly empty) segments.  `/\s+/` additionally merges separator
runs, so the two differ only in the number of empty segments; the scorer
discards all tokens of length below two, so the difference is unobservable
there (see `score`). -/
def splitOnPred (p : Char → Bool) (l : List Char) : List (List Char) :=
  l.foldr
    (fun c acc =>
      if p c then [] :: acc
      else match acc with
        | [] => [[c]]
        | w :: ws => (c :: w) :: ws) [[]]

/-- JavaScript `toLowerCase` (ASCII letters; the repository content is ASCII). -/
def toLowerL (l : List Char) : List Char := l.map Char.toLower

/-- JavaScript `substring(s, e)`: clamp both indices to `[0, length]`, swap when
out of order, return the slice. -/
def jsSubstring (l : List Char) (s e : Int) : List Char :=
  let a := min s.toNat l.length
  let b := min e.toNat l.length
  if a ≤ b then (l.drop a).take (b - a) else (l.drop b).take (a - b)

/-- JavaScript `content.includes(w)`: `w` occurs as a contiguous substring. -/
def jsIncludes (content w : List Char) : Bool :=
  content.tails.any (fun t => w.isPrefixOf t)

/-- `[...new Set(urls)]` — first-occurrence deduplication, chat.ts line 109. -/
def jsSetDedup (l : List (List Char)) : List (List Char) :=
  l.foldl (fun acc x => if x ∈ acc then acc else acc ++ [x]) []

/-! ## URL model (the WHATWG `new URL` built-in, hierarchical subset) -/

/-- Parsed URL components.  `href` is
`scheme ++ "://" ++ host ++ path ++ query ++ fragment`; `query` keeps its
leading `?` and `fragment` its leading `#`; `host` includes any port. -/
structure URLparts where
  scheme : List Char
  host : List Char
  path : List Char
  query : List Char
  fragment : List Char
deriving DecidableEq

/-- Characters ending the scheme component. -/
def schemeSep (c : Char) : Bool := c = ':' || c = '/' || c = '?' || c = '#'

/-- Characters ending the host component. -/
def hostSep (c : Char) : Bool := c = '/' || c = '?' || c = '#'

/-- Split a path-query-fragment tail into components; an empty path becomes
`/` as WHATWG normalization does. -/
def pqfParts (scheme host rel : List Char) : URLparts :=
  let pf := rel.takeWhile (fun c => c ≠ '#')
  let path := pf.takeWhile (fun c => c ≠ '?')
  ⟨scheme, host, if path.isEmpty then ['/'] else path,
    pf.dropWhile (fun c => c ≠ '?'), rel.dropWhile (fun c => c ≠ '#')⟩

/-- Modelled from the WHATWG URL parser for absolute hierarchical URLs:
an alphabetic scheme, `://`, a nonempty host, then path, query, fragment. -/
def parseURL (l : List Char) : Option URLparts :=
  let sch := l.takeWhile (fun c => !schemeSep c)
  if sch.isEmpty || !sch.all Char.isAlpha then none
  else
    match l.dropWhile (fun c => !schemeSep c) with
    | ':' :: '/' :: '/' :: r2 =>
      let host := r2.takeWhile (fun c => !hostSep c)
      if host.isEmpty then none
      else some (pqfParts sch host (r2.dropWhile (fun c => !hostSep c)))
    | _ => none

/-- Does the string start with an (alphabetic) scheme followed by a colon? -/
def hasScheme (l : List Char) : Bool :=
  let sch := l.takeWhile (fun c => !schemeSep c)
  !sch.isEmpty && sch.all Char.isAlpha &&
    (l.dropWhile (fun c => !schemeSep c)).head? = some ':'

/-- `new URL(url, base)` where `base` is an origin (its path is `/`):
absolute URLs ignore the base, `//`-strings are scheme-relative, everything
else resolves against the base origin with base path `/`. -/
def resolveURL (base : URLparts) (l : List Char) : Option URLparts :=
  if hasScheme l then parseURL l
  else
    match l with
    | '/' :: '/' :: _ => parseURL (base.scheme ++ ':' :: l)
    | _ => some (pqfParts base.scheme base.host (if l.head? = some '/' then l else '/' :: l))

/-- `URL.origin` for hierarchical URLs: `scheme ++ "://" ++ host`. -/
def originStr (u : URLparts) : List Char := u.scheme ++ ':' :: '/' :: '/' :: u.host

/-- `u.href.split("#")[0]`: the serialization without the fragment.  Path and
query never contain `#` by construction, so dropping the fragment component is
exactly the split. -/
def hrefNoFrag (u : URLparts) : List Char := originStr u ++ u.path ++ u.query

/-- `normalized.replace(/\/$/, "")`: drop one trailing slash. -/
def stripTrailingSlash (l : List Char) : List Char :=
  if l.getLast? = some '/' then l.dropLast else l

/-- `normalizeUrl` of chat.ts lines 30-41: resolve against the origin, strip
the fragment, drop a trailing slash; `null` when URL construction throws. -/
def normalizeUrl (base : URLparts) (url : List Char) : Option (List Char) :=
  (resolveURL base url).map (fun u => stripTrailingSlash (hrefNoFrag u))

/-- Well-formedness facts that `parseURL` guarantees about its output. -/
def WFparts (u : URLparts) : Prop :=
  u.scheme ≠ [] ∧ (∀ c ∈ u.scheme, c.isAlpha = true) ∧
  u.host ≠ [] ∧ (∀ c ∈ u.host, hostSep c = false)

/-! ## Site crawler (chat.ts lines 17-105) -/

/-- The link loop of chat.ts lines 81-91: normalize each extracted link and
append it to the queue when it passes `nUrl.startsWith(origin)`, is not yet
visited and is not already queued (the queue check sees links pushed earlier in
the same pass, hence the fold over the queue). -/
def addLinkStep (base : URLparts) (visited tv : List (List Char))
    (link : List Char) : List (List Char) :=
  match normalizeUrl base link with
  | none => tv
  | some nUrl =>
    if (originStr base).isPrefixOf nUrl && !visited.contains nUrl && !tv.contains nUrl
    then tv ++ [nUrl] else tv

/-- The body of lines 81-91 folded over the extracted links. -/
def addLinks (base : URLparts) (visited toVisit : List (List Char))
    (links : List (List Char)) : List (List Char) :=
  links.foldl (addLinkStep base visited) toVisit

/-- The `while` loop of chat.ts lines 49-100.  `web n` is the headless-browser
fetch of page `n` returning its extracted absolute link list, `none` when the
fetch or parse throws (the `catch` of line 96 then marks the page visited and
continues).  The loop runs while the queue is nonempty and fewer than
`maxPages` pages are visited. -/
def crawlLoop (web : List Char → Option (List (List Char))) (base : URLparts)
    (maxPages : Nat) (toVisit visited : List (List Char)) : List (List Char) :=
  match toVisit with
  | [] => visited
  | url :: rest =>
    if h : visited.length < maxPages then
      match normalizeUrl base url with
      | none => crawlLoop web base maxPages rest visited
      | some n =>
        if n ∈ visited then crawlLoop web base maxPages rest visited
        else
          match web n with
          | some links =>
            crawlLoop web base maxPages (addLinks base visited rest links) (visited ++ [n])
          | none => crawlLoop web base maxPages rest (visited ++ [n])
    else visited
termination_by (maxPages - visited.length, toVisit.length)
decreasing_by
  all_goals
    first
    | (apply Prod.Lex.right
       simp only [List.length_cons]
       omega)
    | (apply Prod.Lex.left
       simp only [List.length_append, List.length_cons]
       omega)

/-- Fuel-indexed twin of `crawlLoop`, branch for branch; `none` means the fuel
ran out before the loop exited.  Used to evaluate concrete crawls and to state
termination. -/
def crawlLoopF (web : List Char → Option (List (List Char))) (base : URLparts)
    (maxPages : Nat) (toVisit visited : List (List Char)) (fuel : Nat) :
    Option (List (List Char)) :=
  match fuel with
  | 0 => none
  | fuel + 1 =>
    match toVisit with
    | [] => some visited
    | url :: rest =>
      if visited.length < maxPages then
        match normalizeUrl base url with
        | none => crawlLoopF web base maxPages rest visited fuel
        | some n =>
          if n ∈ visited then crawlLoopF web base maxPages rest visited fuel
          else
            match web n with
            | some links =>
              crawlLoopF web base maxPages (addLinks base visited rest links)
                (visited ++ [n]) fuel
            | none => crawlLoopF web base maxPages rest (visited ++ [n]) fuel
      else some visited

/-- `crawlWebsite` of chat.ts lines 17-105.  `new URL(startUrl).origin` throwing
is `none` (the promise rejects); a failed `startNormalized` returns the empty
list; otherwise the loop runs from queue `[startUrl]` and the visited set is
returned in insertion order. -/
def crawlWebsite (startUrl : List Char) (maxPages : Nat)
    (web : List Char → Option (List (List Char))) : Option (List (List Char)) :=
  match parseURL startUrl with
  | none => none
  | some base =>
    match normalizeUrl base startUrl with
    | none => some []
    | some _ => some (crawlLoop web base maxPages [startUrl] [])

/-! ## Text chunker (chat.ts lines 151-172) -/

/-- The chunking `for` loop of chat.ts lines 154-171:
`for (i = 0; i < cleanedText.length; i += chunkSize - overlap)` pushing
`substring(i, i + chunkSize)` paired with its start offset whenever its length
exceeds 100.  The index is an `Int` exactly as in JavaScript.  `fuel` bounds
the number of iterations; `none` means the loop has not exited within `fuel`
iterations (for `overlap < chunkSize`, `text.length + 1` iterations always
suffice, see `chunkLoopFuel_char`). -/
def chunkLoopFuel (text : List Char) (chunkSize overlap i : Int) (fuel : Nat) :
    Option (List (Int × List Char)) :=
  match fuel with
  | 0 => none
  | fuel + 1 =>
    if i < (text.length : Int) then
      match chunkLoopFuel text chunkSize overlap (i + (chunkSize - overlap)) fuel with
      | none => none
      | some rest =>
        let c := jsSubstring text i (i + chunkSize)
        some ((if 100 < c.length then [(i, c)] else []) ++ rest)
    else some []

/-! ## Documents, extraction, combination -/

/-- A langchain `Document`.  The claims observe only `pageContent`; the
metadata (source URL, chunk offset, type) is carried by the chunk loop as the
offset and is otherwise not inspected by the handler. -/
structure Doc where
  pageContent : List Char
deriving DecidableEq

/-- `fetchMultiplePages` of chat.ts lines 107-183: deduplicate the URLs, fetch
each page (`pageText url = none` models a per-page `goto`/evaluate failure,
which the `catch` of line 175 absorbs), clean the text, and when more than 50
characters remain, run the chunk loop with `chunkSize = 1000`, `overlap = 200`
and keep every window longer than 100 characters.  The fuel
`(cleanedText.length + 1)` is proven sufficient (`chunkLoopFuel_char`), so
`getD []` never takes its default on this path. -/
def fetchMultiplePages (pageText : List Char → Option (List Char))
    (urls : List (List Char)) : List Doc :=
  (jsSetDedup urls).foldl
    (fun documents url =>
      match pageText url with
      | none => documents
      | some txt =>
        let cleanedText := cleanText txt
        if 50 < cleanedText.length then
          documents ++
            ((chunkLoopFuel cleanedText 1000 200 0 (cleanedText.length + 1)).getD []).map
              (fun pc => ⟨pc.2⟩)
        else documents) []

/-- `combineDocumentsFn` of makechain.ts: join the page contents with a
separator (the call sites use the default separator of two newlines, passed
explicitly here). -/
def combineDocumentsFn (docs : List Doc) (separator : List Char) : List Char :=
  List.intercalate separator (docs.map Doc.pageContent)

/-! ## Relevance scorer (chat.ts lines 220-227) -/

/-- The question tokens that the scorer counts for a given passage: whitespace
tokens of the lowercased question that occur in the lowercased content and are
longer than one character. -/
def qualTokens (sanitizedQuestion pageContent : List Char) : List (List Char) :=
  (splitOnPred Char.isWhitespace (toLowerL sanitizedQuestion)).filter
    (fun w => jsIncludes (toLowerL pageContent) w && decide (1 < w.length))

/-- The score of chat.ts lines 221-225:
`questionWords.filter((w) => content.includes(w) && w.length > 1).length`. -/
def score (sanitizedQuestion pageContent : List Char) : Nat :=
  (qualTokens sanitizedQuestion pageContent).length

/-- Modelled from the spec: the count of DISTINCT question terms (above the
minimum length) found in the lowercased passage content — section 3,
ScoredPassage.  Stated for comparison with `score`, which the source computes
without deduplication. -/
def specScoreDistinct (sanitizedQuestion pageContent : List Char) : Nat :=
  (qualTokens sanitizedQuestion pageContent).dedup.length

/-! ## Chat handler (chat.ts lines 185-307) -/

/-- The observable outcome of one request: 405, 400, 200 with text and source
documents, or 500 with an error message. -/
inductive ChatResult where
  | methodNotAllowed : ChatResult
  | noQuestion : ChatResult
  | ok : List Char → List Doc → ChatResult
  | serverError : List Char → ChatResult
deriving DecidableEq

/-- External collaborators of the handler: the Pinecone retriever, the
generation model (prompt to answer text, after the
`typeof raw === "string" ? raw : raw?.text ?? ""` extraction), the
browser-side link extraction used by `crawlWebsite`, and the browser-side page
text used by `fetchMultiplePages`.  `Except.error` models a thrown exception
reaching the handler `catch`. -/
structure Deps where
  retrieve : List Char → Except (List Char) (List Doc)
  model : List Char → Except (List Char) (List Char)
  web : List Char → Option (List (List Char))
  pageText : List Char → Option (List Char)

/-- `question.trim().replaceAll("\n", " ")` — chat.ts line 200. -/
def sanitize (question : List Char) : List Char :=
  (jsTrim question).map (fun c => if c = '\n' then ' ' else c)

/-- Scoring and filtering, chat.ts lines 220-231: keep the documents whose
score is positive, in retrieval order. -/
def relevantOf (sanitizedQuestion : List Char) (docs : List Doc) : List Doc :=
  ((docs.map (fun d => (d, score sanitizedQuestion d.pageContent))).filter
    (fun p => 0 < p.2)).map (fun p => p.1)

/-- The two-newline separator used by every `combineDocumentsFn` call site. -/
def sepNlNl : List Char := ['\n', '\n']

/-- `relevantDocs.length > 0 ? combineDocumentsFn(relevantDocs) : ""` —
chat.ts lines 233-234. -/
def contextOf (relevantDocs : List Doc) : List Char :=
  if 0 < relevantDocs.length then combineDocumentsFn relevantDocs sepNlNl else []

/-- History serialization, chat.ts lines 237-239. -/
def pastOf (history : List (List Char × List Char)) : List Char :=
  List.intercalate sepNlNl
    (history.map (fun qa =>
      "Human: ".toList ++ qa.1 ++ '\n' :: "Assistant: ".toList ++ qa.2))

/-- Placeholder for the default history text `No prior history.`. -/
def noHistoryText : List Char := "No prior history.".toList

/-- The Pinecone-context prompt of chat.ts lines 250-263.  The fixed English
instruction sentences are abbreviated (no claim inspects them); the
interpolation structure, including the `pastMessages or default` fallback, is
kept. -/
def pineconePrompt (contextText pastMessages sanitizedQuestion : List Char) : List Char :=
  "You are a helpful AI assistant. Use the following context and conversation history to answer the question.\n\nContext:\n".toList
  ++ contextText
  ++ "\n\nConversation history:\n".toList
  ++ (if pastMessages.isEmpty then noHistoryText else pastMessages)
  ++ "\n\nCurrent question:\nHuman: ".toList
  ++ sanitizedQuestion
  ++ "\nAssistant:\n".toList

/-- The web-context prompt of chat.ts lines 281-293, same conventions. -/
def webPrompt (webContext pastMessages sanitizedQuestion : List Char) : List Char :=
  "You are a helpful AI assistant. Use the following web content and conversation history to answer the question.\nContext:\n".toList
  ++ webContext
  ++ "\n\nConversation history:\n".toList
  ++ (if pastMessages.isEmpty then noHistoryText else pastMessages)
  ++ "\n\nCurrent question:\nHuman: ".toList
  ++ sanitizedQuestion
  ++ "\nAssistant:\n".toList

/-- The hardcoded fallback seed list, chat.ts line 15. -/
def urlsToVisit : List (List Char) := ["https://www.codesfortomorrow.com".toList]

/-- The Pinecone answer stage, chat.ts lines 248-266: the answer stays the
empty string when the context is empty, otherwise the model is invoked on the
Pinecone prompt. -/
def pineconeAnswer (deps : Deps) (contextText pastMessages sanitizedQuestion : List Char) :
    Except (List Char) (List Char) :=
  if contextText.isEmpty then Except.ok []
  else deps.model (pineconePrompt contextText pastMessages sanitizedQuestion)

/-- The crawl accumulation loop of chat.ts lines 271-275: crawl each seed
domain with budget `maxPages`, concatenating the visited URIs; a seed whose
URL constructor throws rejects the whole stage. -/
def crawlAll (web : List Char → Option (List (List Char)))
    (domains : List (List Char)) (maxPages : Nat) : Option (List (List Char)) :=
  match domains with
  | [] => some []
  | d :: ds =>
    match crawlWebsite d maxPages web, crawlAll web ds maxPages with
    | some us, some rest => some (us ++ rest)
    | _, _ => none

/-- The handler of chat.ts lines 185-307.  The second component records
whether the fallback crawl stage (lines 269-297) ran; the `ChatResult` is the
HTTP response.  An empty `question` models the falsy check of line 196. -/
def handlerCore (deps : Deps) (method question : List Char)
    (history : List (List Char × List Char)) : ChatResult × Bool :=
  if method ≠ "POST".toList then (ChatResult.methodNotAllowed, false)
  else if question.isEmpty then (ChatResult.noQuestion, false)
  else
    match deps.retrieve (sanitize question) with
    | Except.error e => (ChatResult.serverError e, false)
    | Except.ok pineconeDocs =>
      match pineconeAnswer deps (contextOf (relevantOf (sanitize question) pineconeDocs))
          (pastOf history) (sanitize question) with
      | Except.error e => (ChatResult.serverError e, false)
      | Except.ok answer =>
        if answer.isEmpty then
          match crawlAll deps.web urlsToVisit 50 with
          | none => (ChatResult.serverError "invalid seed URL".toList, true)
          | some allUrls =>
            match deps.model (webPrompt
                (combineDocumentsFn (fetchMultiplePages deps.pageText allUrls) sepNlNl)
                (pastOf history) (sanitize question)) with
            | Except.error e => (ChatResult.serverError e, true)
            | Except.ok answer2 =>
              (ChatResult.ok answer2 ((relevantOf (sanitize question) pineconeDocs).take 5), true)
        else (ChatResult.ok answer ((relevantOf (sanitize question) pineconeDocs).take 5), false)

/-! ## Concrete fixtures for witnesses and counterexamples -/

/-- Seed URL `https://example.com`. -/
def seedEx : List Char := "https://example.com".toList

/-- `parseURL seedEx`. -/
def baseEx : URLparts :=
  ⟨"https".toList, "example.com".toList, ['/'], [], []⟩

/-- A normalized URI of a foreign origin that nevertheless passes the
`startsWith(origin)` check for `https://example.com`. -/
def evilN : List Char := "https://example.com.evil.org/x".toList

/-- A web in which the seed page links to the foreign-origin URL. -/
def webEvil (s : List Char) : Option (List (List Char)) :=
  if s = seedEx then some [evilN] else some []

/-- A web in which every page has no links. -/
def webEmpty (_ : List Char) : Option (List (List Char)) := some []

/-- A web in which every page fetch fails. -/
def webFail (_ : List Char) : Option (List (List Char)) := none

/-- The hardcoded fallback seed of chat.ts line 15 (already in normalized
form). -/
def ctfSeed : List Char := "https://www.codesfortomorrow.com".toList

/-- `parseURL ctfSeed`. -/
def ctfBase : URLparts :=
  ⟨"https".toList, "www.codesfortomorrow.com".toList, ['/'], [], []⟩

/-- Dependencies for the fallback counterexample: the index returns one
passage containing the question term, but the model answers the empty string
on every prompt; page fetches fail. -/
def depsEmptyModel : Deps :=
  { retrieve := fun _ => Except.ok [⟨"the cat sat".toList⟩]
    model := fun _ => Except.ok []
    web := webFail
    pageText := fun _ => none }

/-- Dependencies returning no index passages and a model that answers from web
context. -/
def depsWebAnswer : Deps :=
  { retrieve := fun _ => Except.ok []
    model := fun _ => Except.ok "answer from web".toList
    web := webFail
    pageText := fun _ => none }

/-- Eight retrievable passages that all contain the question terms. -/
def docs8 : List Doc :=
  [⟨"big cat one".toList⟩, ⟨"big cat two".toList⟩, ⟨"big cat three".toList⟩,
   ⟨"big cat four".toList⟩, ⟨"big cat five".toList⟩, ⟨"big cat six".toList⟩,
   ⟨"big cat seven".toList⟩, ⟨"big cat eight".toList⟩]

/-- Dependencies with eight relevant passages and a nonempty model answer, so
the request is answered from index context without crawling. -/
def depsEight : Deps :=
  { retrieve := fun _ => Except.ok docs8
    model := fun _ => Except.ok "yes".toList
    web := webFail
    pageText := fun _ => none }

/-! ## List and URL lemmas -/

set_option maxRecDepth 100000

theorem takeWhile_append_all {α : Type} (p : α → Bool) :
    ∀ (a b : List α), (∀ c ∈ a, p c = true) →
      (a ++ b).takeWhile p = a ++ b.takeWhile p ∧ (a ++ b).dropWhile p = b.dropWhile p := by
  intro a
  induction a with
  | nil => intro b _; simp
  | cons c a ih =>
    intro b h
    have hc : p c = true := h c (by simp)
    have h2 := ih b (fun x hx => h x (by simp [hx]))
    simp [List.takeWhile_cons, List.dropWhile_cons, hc, h2.1, h2.2]

theorem stripTrailingSlash_keeps (a s : List Char) (h : s ≠ []) :
    a <+: stripTrailingSlash (a ++ s) := by
  unfold stripTrailingSlash
  split
  · rw [List.dropLast_append_of_ne_nil a h]
    exact List.prefix_append a _
  · exact List.prefix_append a s

theorem alpha_not_schemeSep {c : Char} (h : c.isAlpha = true) : schemeSep c = false := by
  have h1 : c ≠ ':' := fun e => absurd h (by subst e; decide)
  have h2 : c ≠ '/' := fun e => absurd h (by subst e; decide)
  have h3 : c ≠ '?' := fun e => absurd h (by subst e; decide)
  have h4 : c ≠ '#' := fun e => absurd h (by subst e; decide)
  simp [schemeSep, h1, h2, h3, h4]

theorem pqfParts_path_ne_nil (s h r : List Char) : (pqfParts s h r).path ≠ [] := by
  unfold pqfParts
  simp only
  split
  · simp
  · next hcond =>
    intro e
    apply hcond
    rw [e]
    rfl

theorem parseURL_elim {l : List Char} {u : URLparts} (h : parseURL l = some u) :
    l.takeWhile (fun c => !schemeSep c) = u.scheme ∧
    u.scheme ≠ [] ∧ u.scheme.all Char.isAlpha = true ∧
    ∃ r2, l.dropWhile (fun c => !schemeSep c) = ':' :: '/' :: '/' :: r2 ∧
      u.host = r2.takeWhile (fun c => !hostSep c) ∧ u.host ≠ [] ∧
      u = pqfParts u.scheme u.host (r2.dropWhile (fun c => !hostSep c)) := by
  unfold parseURL at h
  simp only at h
  split at h
  · exact absurd h (by simp)
  · next hcond =>
    simp only [Bool.or_eq_true, not_or, Bool.not_eq_true, Bool.not_eq_false] at hcond
    obtain ⟨hne, hall⟩ := hcond
    split at h
    · next r2 heq =>
      split at h
      · exact absurd h (by simp)
      · next hostne =>
        injection h with h
        subst h
        have hostF : (r2.takeWhile (fun c => !hostSep c)).isEmpty = false := by
          cases hiE : (r2.takeWhile (fun c => !hostSep c)).isEmpty
          · rfl
          · exact absurd hiE hostne
        refine ⟨rfl, ?_, ?_, r2, heq, rfl, ?_, rfl⟩
        · exact (List.isEmpty_eq_false).mp hne
        · show (l.takeWhile (fun c => !schemeSep c)).all Char.isAlpha = true
          simpa using hall
        · exact (List.isEmpty_eq_false).mp hostF
    · exact absurd h (by simp)

theorem parseURL_wf {l : List Char} {u : URLparts} (h : parseURL l = some u) : WFparts u := by
  obtain ⟨-, hne, hall, r2, -, hhost, hhne, -⟩ := parseURL_elim h
  refine ⟨hne, List.all_eq_true.mp hall, hhne, ?_⟩
  intro c hc
  rw [hhost] at hc
  have := List.mem_takeWhile_imp hc
  simpa using this

theorem parseURL_recon {l : List Char} {u : URLparts} (h : parseURL l = some u) :
    ∃ t, l = originStr u ++ t := by
  obtain ⟨htw, -, -, r2, hdw, hhost, -, -⟩ := parseURL_elim h
  refine ⟨r2.dropWhile (fun c => !hostSep c), ?_⟩
  have h1 : l = l.takeWhile (fun c => !schemeSep c) ++ l.dropWhile (fun c => !schemeSep c) :=
    (List.takeWhile_append_dropWhile _ _).symm
  have h2 : r2 = r2.takeWhile (fun c => !hostSep c) ++ r2.dropWhile (fun c => !hostSep c) :=
    (List.takeWhile_append_dropWhile _ _).symm
  rw [h1, htw, hdw, originStr]
  rw [hhost]
  simp [h2.symm]

theorem hasScheme_of_parse {l : List Char} {u : URLparts} (h : parseURL l = some u) :
    hasScheme l = true := by
  obtain ⟨htw, hne, hall, r2, hdw, -, -, -⟩ := parseURL_elim h
  unfold hasScheme
  simp only [htw, hdw, Bool.and_eq_true, List.head?_cons, Option.some.injEq]
  refine ⟨⟨?_, hall⟩, rfl⟩
  simp [List.isEmpty_eq_false.mpr hne]

theorem parseURL_ext {base : URLparts} (hwf : WFparts base) (t : List Char) :
    ∃ u, parseURL (originStr base ++ t) = some u ∧ u.scheme = base.scheme ∧
      (∃ t1, u.host = base.host ++ t1) ∧ u.path ≠ [] := by
  obtain ⟨hs1, hs2, hh1, hh2⟩ := hwf
  have hsp : ∀ c ∈ base.scheme, (fun c => !schemeSep c) c = true := by
    intro c hc
    simp [alpha_not_schemeSep (hs2 c hc)]
  have heq : originStr base ++ t = base.scheme ++ (':' :: '/' :: '/' :: (base.host ++ t)) := by
    simp [originStr]
  have h1 := takeWhile_append_all (fun c => !schemeSep c) base.scheme
    (':' :: '/' :: '/' :: (base.host ++ t)) hsp
  have htw : (':' :: '/' :: '/' :: (base.host ++ t)).takeWhile (fun c => !schemeSep c) = [] := by
    simp [List.takeWhile_cons, schemeSep]
  have hdw : (':' :: '/' :: '/' :: (base.host ++ t)).dropWhile (fun c => !schemeSep c) =
      ':' :: '/' :: '/' :: (base.host ++ t) := by
    rw [List.dropWhile_cons]
    simp [schemeSep]
  have hhp : ∀ c ∈ base.host, (fun c => !hostSep c) c = true := by
    intro c hc
    simp [hh2 c hc]
  have h2 := takeWhile_append_all (fun c => !hostSep c) base.host t hhp
  refine ⟨pqfParts base.scheme (base.host ++ t.takeWhile (fun c => !hostSep c))
      (t.dropWhile (fun c => !hostSep c)), ?_, rfl, ⟨_, rfl⟩, pqfParts_path_ne_nil _ _ _⟩
  unfold parseURL
  rw [heq, h1.1, htw, h1.2, hdw]
  simp only [List.append_nil]
  rw [if_neg, h2.1, h2.2]
  · rw [if_neg]
    intro hiE
    exact hh1 (List.append_eq_nil.mp (List.isEmpty_iff.mp hiE)).1
  · simp [List.isEmpty_eq_false.mpr hs1, List.all_eq_true.mpr hs2]

theorem normalize_origin_ext {base : URLparts} (hwf : WFparts base) (t : List Char) :
    ∃ n, normalizeUrl base (originStr base ++ t) = some n ∧ originStr base <+: n := by
  obtain ⟨u, hu, hsch, ⟨t1, hhost⟩, hpath⟩ := parseURL_ext hwf t
  have hres : resolveURL base (originStr base ++ t) = some u := by
    unfold resolveURL
    rw [if_pos (hasScheme_of_parse hu)]
    exact hu
  refine ⟨stripTrailingSlash (hrefNoFrag u), ?_, ?_⟩
  · unfold normalizeUrl
    rw [hres]
    rfl
  · have horig : hrefNoFrag u = originStr base ++ (t1 ++ u.path ++ u.query) := by
      unfold hrefNoFrag originStr
      rw [hsch, hhost]
      simp
    rw [horig]
    apply stripTrailingSlash_keeps
    intro hnil
    rcases List.append_eq_nil.mp hnil with ⟨hl, -⟩
    exact hpath (List.append_eq_nil.mp hl).2

theorem normalize_of_parse {s : List Char} {u : URLparts} (h : parseURL s = some u) :
    ∃ n, normalizeUrl u s = some n ∧ originStr u <+: n := by
  obtain ⟨t, ht⟩ := parseURL_recon h
  rw [ht]
  exact normalize_origin_ext (parseURL_wf h) t

theorem normalize_of_prefixed {base : URLparts} (hwf : WFparts base) {s n : List Char}
    (hp : originStr base <+: s) (h : normalizeUrl base s = some n) :
    originStr base <+: n := by
  obtain ⟨t, rfl⟩ := hp
  obtain ⟨n2, h2, hpre⟩ := normalize_origin_ext hwf t
  rw [h] at h2
  injection h2 with h2
  rw [h2]
  exact hpre

/-! ## Crawler lemmas -/

theorem crawlLoop_nil (web : List Char → Option (List (List Char))) (base : URLparts)
    (m : Nat) (v : List (List Char)) : crawlLoop web base m [] v = v := by
  rw [crawlLoop]

theorem crawlLoop_stop {web base m v url rest} (hm : ¬ v.length < m) :
    crawlLoop web base m (url :: rest) v = v := by
  rw [crawlLoop]
  simp [hm]

theorem crawlLoop_skipBad {web base m v url rest} (hm : v.length < m)
    (hn : normalizeUrl base url = none) :
    crawlLoop web base m (url :: rest) v = crawlLoop web base m rest v := by
  rw [crawlLoop]
  simp [hm, hn]

theorem crawlLoop_skipSeen {web base m v url rest n} (hm : v.length < m)
    (hn : normalizeUrl base url = some n) (hv : n ∈ v) :
    crawlLoop web base m (url :: rest) v = crawlLoop web base m rest v := by
  rw [crawlLoop]
  simp [hm, hn, hv]

theorem crawlLoop_fetch {web base m v url rest n links} (hm : v.length < m)
    (hn : normalizeUrl base url = some n) (hv : n ∉ v) (hw : web n = some links) :
    crawlLoop web base m (url :: rest) v =
      crawlLoop web base m (addLinks base v rest links) (v ++ [n]) := by
  rw [crawlLoop]
  simp [hm, hn, hv, hw]

theorem crawlLoop_fail {web base m v url rest n} (hm : v.length < m)
    (hn : normalizeUrl base url = some n) (hv : n ∉ v) (hw : web n = none) :
    crawlLoop web base m (url :: rest) v = crawlLoop web base m rest (v ++ [n]) := by
  rw [crawlLoop]
  simp [hm, hn, hv, hw]

theorem crawlLoopF_sound : ∀ (fuel : Nat) web base m tv v r,
    crawlLoopF web base m tv v fuel = some r → crawlLoop web base m tv v = r := by
  intro fuel
  induction fuel with
  | zero =>
    intro web base m tv v r h
    exact absurd h (by simp [crawlLoopF])
  | succ f ih =>
    intro web base m tv v r h
    cases tv with
    | nil =>
      rw [crawlLoop_nil]
      simpa [crawlLoopF] using h
    | cons url rest =>
      by_cases hm : v.length < m
      · cases hn : normalizeUrl base url with
        | none =>
          rw [crawlLoop_skipBad hm hn]
          apply ih
          simpa [crawlLoopF, hm, hn] using h
        | some n =>
          by_cases hv : n ∈ v
          · rw [crawlLoop_skipSeen hm hn hv]
            apply ih
            simpa [crawlLoopF, hm, hn, hv] using h
          · cases hw : web n with
            | some links =>
              rw [crawlLoop_fetch hm hn hv hw]
              apply ih
              simpa [crawlLoopF, hm, hn, hv, hw] using h
            | none =>
              rw [crawlLoop_fail hm hn hv hw]
              apply ih
              simpa [crawlLoopF, hm, hn, hv, hw] using h
      · rw [crawlLoop_stop hm]
        simpa [crawlLoopF, hm] using h

theorem addLinkStep_mem {base v tv link x} (h : x ∈ addLinkStep base v tv link) :
    x ∈ tv ∨ originStr base <+: x := by
  unfold addLinkStep at h
  cases hn : normalizeUrl base link with
  | none =>
    rw [hn] at h
    exact Or.inl h
  | some nUrl =>
    rw [hn] at h
    simp only at h
    by_cases hcond :
        ((originStr base).isPrefixOf nUrl && !v.contains nUrl && !tv.contains nUrl) = true
    · rw [if_pos hcond] at h
      rcases List.mem_append.mp h with hx | hx
      · exact Or.inl hx
      · right
        rw [List.mem_singleton.mp hx]
        exact List.isPrefixOf_iff_prefix.mp
          ((Bool.and_eq_true _ _).mp ((Bool.and_eq_true _ _).mp hcond).1).1
    · rw [if_neg hcond] at h
      exact Or.inl h

theorem addLinks_mem {base v} : ∀ links tv x, x ∈ addLinks base v tv links →
    x ∈ tv ∨ originStr base <+: x := by
  intro links
  induction links with
  | nil =>
    intro tv x h
    exact Or.inl h
  | cons l ls ih =>
    intro tv x h
    have h2 : x ∈ addLinks base v (addLinkStep base v tv l) ls := h
    rcases ih _ x h2 with hx | hx
    · exact addLinkStep_mem hx
    · exact Or.inr hx

theorem addLinks_queueInv {base : URLparts} (hwf : WFparts base)
    {v tv links : List (List Char)}
    (hq : ∀ u ∈ tv, ∀ n, normalizeUrl base u = some n → originStr base <+: n) :
    ∀ u ∈ addLinks base v tv links, ∀ n, normalizeUrl base u = some n →
      originStr base <+: n := by
  intro u hu n hn
  rcases addLinks_mem links tv u hu with h | h
  · exact hq u h n hn
  · exact normalize_of_prefixed hwf h hn

theorem crawlLoop_inv (web : List Char → Option (List (List Char))) (base : URLparts)
    (m : Nat) (hwf : WFparts base) : ∀ tv v,
    (∀ s ∈ v, originStr base <+: s) → v.length ≤ m →
    (∀ u ∈ tv, ∀ n, normalizeUrl base u = some n → originStr base <+: n) →
    (∀ s ∈ crawlLoop web base m tv v, originStr base <+: s) ∧
      (crawlLoop web base m tv v).length ≤ m := by
  intro tv v
  induction tv, v using crawlLoop.induct web base m with
  | case1 v =>
    intro hv hlen _
    rw [crawlLoop_nil]
    exact ⟨hv, hlen⟩
  | case2 v url rest hm hn ih =>
    intro hv hlen hq
    rw [crawlLoop_skipBad hm hn]
    exact ih hv hlen (fun u hu => hq u (by simp [hu]))
  | case3 v url rest hm n hn hmem ih =>
    intro hv hlen hq
    rw [crawlLoop_skipSeen hm hn hmem]
    exact ih hv hlen (fun u hu => hq u (by simp [hu]))
  | case4 v url rest hm n hn hmem links hw ih =>
    intro hv hlen hq
    rw [crawlLoop_fetch hm hn hmem hw]
    have hpn : originStr base <+: n := hq url (by simp) n hn
    refine ih ?_ ?_ ?_
    · intro s hs
      rcases List.mem_append.mp hs with hs | hs
      · exact hv s hs
      · rw [List.mem_singleton.mp hs]
        exact hpn
    · simp only [List.length_append, List.length_singleton]
      omega
    · exact addLinks_queueInv hwf (fun u hu => hq u (by simp [hu]))
  | case5 v url rest hm n hn hmem hw ih =>
    intro hv hlen hq
    rw [crawlLoop_fail hm hn hmem hw]
    have hpn : originStr base <+: n := hq url (by simp) n hn
    refine ih ?_ ?_ ?_
    · intro s hs
      rcases List.mem_append.mp hs with hs | hs
      · exact hv s hs
      · rw [List.mem_singleton.mp hs]
        exact hpn
    · simp only [List.length_append, List.length_singleton]
      omega
    · exact fun u hu => hq u (by simp [hu])
  | case6 v url rest hm =>
    intro hv hlen _
    rw [crawlLoop_stop hm]
    exact ⟨hv, hlen⟩

theorem crawlLoop_mono (web : List Char → Option (List (List Char))) (base : URLparts)
    (m : Nat) : ∀ tv v x, x ∈ v → x ∈ crawlLoop web base m tv v := by
  intro tv v
  induction tv, v using crawlLoop.induct web base m with
  | case1 v =>
    intro x hx
    rw [crawlLoop_nil]
    exact hx
  | case2 v url rest hm hn ih =>
    intro x hx
    rw [crawlLoop_skipBad hm hn]
    exact ih x hx
  | case3 v url rest hm n hn hmem ih =>
    intro x hx
    rw [crawlLoop_skipSeen hm hn hmem]
    exact ih x hx
  | case4 v url rest hm n hn hmem links hw ih =>
    intro x hx
    rw [crawlLoop_fetch hm hn hmem hw]
    exact ih x (by simp [hx])
  | case5 v url rest hm n hn hmem hw ih =>
    intro x hx
    rw [crawlLoop_fail hm hn hmem hw]
    exact ih x (by simp [hx])
  | case6 v url rest hm =>
    intro x hx
    rw [crawlLoop_stop hm]
    exact hx

theorem crawlLoop_exists_fuel (web : List Char → Option (List (List Char)))
    (base : URLparts) (m : Nat) : ∀ tv v, ∃ fuel,
    crawlLoopF web base m tv v fuel = some (crawlLoop web base m tv v) := by
  intro tv v
  induction tv, v using crawlLoop.induct web base m with
  | case1 v =>
    exact ⟨1, by simp [crawlLoopF, crawlLoop_nil]⟩
  | case2 v url rest hm hn ih =>
    obtain ⟨f, hf⟩ := ih
    exact ⟨f + 1, by simp [crawlLoopF, hm, hn, hf, crawlLoop_skipBad hm hn]⟩
  | case3 v url rest hm n hn hmem ih =>
    obtain ⟨f, hf⟩ := ih
    exact ⟨f + 1, by simp [crawlLoopF, hm, hn, hmem, hf, crawlLoop_skipSeen hm hn hmem]⟩
  | case4 v url rest hm n hn hmem links hw ih =>
    obtain ⟨f, hf⟩ := ih
    exact ⟨f + 1, by simp [crawlLoopF, hm, hn, hmem, hw, hf, crawlLoop_fetch hm hn hmem hw]⟩
  | case5 v url rest hm n hn hmem hw ih =>
    obtain ⟨f, hf⟩ := ih
    exact ⟨f + 1, by simp [crawlLoopF, hm, hn, hmem, hw, hf, crawlLoop_fail hm hn hmem hw]⟩
  | case6 v url rest hm =>
    exact ⟨1, by simp [crawlLoopF, hm, crawlLoop_stop hm]⟩

/-! ## Chunker lemmas -/

theorem jsSubstring_window (l : List Char) (i cs : Nat) (h : i < l.length) :
    jsSubstring l (i : Int) ((i : Int) + (cs : Int)) = (l.drop i).take cs := by
  unfold jsSubstring
  have h1 : ((i : Int)).toNat = i := Int.toNat_ofNat i
  have h2 : ((i : Int) + (cs : Int)).toNat = i + cs := by omega
  simp only [h1, h2]
  have ha : min i l.length = i := min_eq_left (le_of_lt h)
  have hb : min i l.length ≤ min (i + cs) l.length := by omega
  rw [if_pos hb, ha]
  apply List.take_eq_take.mpr
  simp only [List.length_drop]
  omega

theorem chunkLoopFuel_char (text : List Char) (cs ov : Nat) (hov : ov < cs) :
    ∀ (fuel : Nat) (i : Nat), text.length - i < fuel →
    ∃ L, chunkLoopFuel text (cs : Int) (ov : Int) (i : Int) fuel = some L ∧
      (∀ off w, ((off, w) ∈ L ↔ ∃ k : Nat, off = ((i + k * (cs - ov) : Nat) : Int) ∧
        i + k * (cs - ov) < text.length ∧
        w = (text.drop (i + k * (cs - ov))).take cs ∧ 100 < w.length)) ∧
      L.Pairwise (fun a b => a.1 < b.1) := by
  intro fuel
  induction fuel with
  | zero =>
    intro i hi
    omega
  | succ f ih =>
    intro i hi
    by_cases hlt : i < text.length
    · have hcond : (i : Int) < (text.length : Int) := by exact_mod_cast hlt
      have hstep : (i : Int) + ((cs : Int) - (ov : Int)) = ((i + (cs - ov) : Nat) : Int) := by
        omega
      obtain ⟨L2, hL2, hmem2, hpair2⟩ := ih (i + (cs - ov)) (by omega)
      refine ⟨(if 100 < ((text.drop i).take cs).length
            then [((i : Int), (text.drop i).take cs)] else []) ++ L2, ?_, ?_, ?_⟩
      · rw [chunkLoopFuel]
        rw [if_pos hcond, hstep, hL2]
        rw [jsSubstring_window text i cs hlt]
      · intro off w
        constructor
        · intro hmem
          rcases List.mem_append.mp hmem with hx | hx
          · by_cases hlen : 100 < ((text.drop i).take cs).length
            · rw [if_pos hlen] at hx
              have hx2 := List.mem_singleton.mp hx
              have hoff : off = (i : Int) := congrArg Prod.fst hx2
              have hwv : w = (text.drop i).take cs := congrArg Prod.snd hx2
              refine ⟨0, ?_, ?_, ?_, ?_⟩
              · rw [hoff]; norm_num
              · simpa using hlt
              · simpa using hwv
              · rw [hwv]; exact hlen
            · rw [if_neg hlen] at hx
              exact absurd hx (by simp)
          · obtain ⟨k, hk1, hk2, hk3, hk4⟩ := (hmem2 off w).mp hx
            have harith : i + (cs - ov) + k * (cs - ov) = i + (k + 1) * (cs - ov) := by ring
            refine ⟨k + 1, ?_, ?_, ?_, hk4⟩
            · rw [hk1, harith]
            · rw [← harith]; exact hk2
            · rw [← harith]; exact hk3
        · rintro ⟨k, hk1, hk2, hk3, hk4⟩
          cases k with
          | zero =>
            apply List.mem_append_left
            simp only [Nat.zero_mul, Nat.add_zero] at hk1 hk2 hk3
            have hlen : 100 < ((text.drop i).take cs).length := by rw [← hk3]; exact hk4
            rw [if_pos hlen]
            simp [hk1, hk3]
          | succ k =>
            apply List.mem_append_right
            apply (hmem2 off w).mpr
            have harith : i + (cs - ov) + k * (cs - ov) = i + (k + 1) * (cs - ov) := by ring
            exact ⟨k, by rw [hk1, harith], by rw [harith]; exact hk2, by rw [harith]; exact hk3, hk4⟩
      · apply List.pairwise_append.mpr
        refine ⟨?_, hpair2, ?_⟩
        · split
          · exact List.pairwise_singleton _ _
          · exact List.Pairwise.nil
        · intro a ha b hb
          have hb2 := (hmem2 b.1 b.2).mp (by simpa using hb)
          obtain ⟨k, hbk, -, -, -⟩ := hb2
          have ha2 : a.1 = (i : Int) := by
            by_cases hlen : 100 < ((text.drop i).take cs).length
            · rw [if_pos hlen] at ha
              rw [List.mem_singleton.mp ha]
            · rw [if_neg hlen] at ha
              exact absurd ha (by simp)
          rw [ha2, hbk]
          have hd : 0 < cs - ov := by omega
          have : i < i + (cs - ov) + k * (cs - ov) := by
            have := Nat.zero_le (k * (cs - ov))
            omega
          exact_mod_cast this
    · refine ⟨[], ?_, ?_, List.Pairwise.nil⟩
      · rw [chunkLoopFuel]
        rw [if_neg (by exact_mod_cast hlt)]
      · intro off w
        simp only [List.not_mem_nil, false_iff]
        rintro ⟨k, -, hk2, -, -⟩
        omega

theorem chunkLoopFuel_bad (text : List Char) (cs ov : Int) (hbad : cs ≤ ov)
    (hne : text ≠ []) : ∀ (fuel : Nat) (i : Int), i ≤ 0 →
    chunkLoopFuel text cs ov i fuel = none := by
  intro fuel
  induction fuel with
  | zero =>
    intro i _
    rfl
  | succ f ih =>
    intro i hi
    have hlen : 0 < text.length := List.length_pos.mpr hne
    have hcond : i < (text.length : Int) := by
      have : (0 : Int) < (text.length : Int) := by exact_mod_cast hlen
      omega
    rw [chunkLoopFuel]
    rw [if_pos hcond, ih (i + (cs - ov)) (by omega)]

/-! ## Scorer lemmas -/

theorem toLower_idem (c : Char) : c.toLower.toLower = c.toLower := by
  show Char.toLower (Char.toLower c) = Char.toLower c
  unfold Char.toLower
  simp only []
  by_cases h : c.toNat ≥ 65 ∧ c.toNat ≤ 90
  · rw [if_pos h]
    have hval : (c.toNat + 32).isValidChar := Or.inl (by omega)
    have htn : (Char.ofNat (c.toNat + 32)).toNat = c.toNat + 32 := by
      unfold Char.ofNat
      rw [dif_pos hval]
      rfl
    rw [if_neg (by rw [htn]; omega)]
  · rw [if_neg h, if_neg h]

theorem toLowerL_idem (l : List Char) : toLowerL (toLowerL l) = toLowerL l := by
  unfold toLowerL
  rw [List.map_map]
  have hcomp : Char.toLower ∘ Char.toLower = Char.toLower := funext toLower_idem
  rw [hcomp]

/-! ## Handler lemmas -/

theorem handlerCore_ok_inv {deps : Deps} {method q : List Char}
    {hist : List (List Char × List Char)} {text : List Char} {docs : List Doc} {b : Bool}
    (h : handlerCore deps method q hist = (ChatResult.ok text docs, b)) :
    ∃ rdocs, deps.retrieve (sanitize q) = Except.ok rdocs ∧
      docs = (relevantOf (sanitize q) rdocs).take 5 := by
  unfold handlerCore at h
  split at h
  · exact absurd h (by simp)
  · split at h
    · exact absurd h (by simp)
    · split at h
      · exact absurd h (by simp)
      · next pineconeDocs heq =>
        split at h
        · exact absurd h (by simp)
        · next answer hans =>
          split at h
          · split at h
            · exact absurd h (by simp)
            · next us hus =>
              split at h
              · exact absurd h (by simp)
              · next a2 hmod =>
                refine ⟨pineconeDocs, heq, ?_⟩
                have := (Prod.mk.injEq _ _ _ _).mp h
                have h2 := (ChatResult.ok.injEq _ _ _ _).mp this.1
                exact h2.2.symm
          · refine ⟨pineconeDocs, heq, ?_⟩
            have := (Prod.mk.injEq _ _ _ _).mp h
            have h2 := (ChatResult.ok.injEq _ _ _ _).mp this.1
            exact h2.2.symm

theorem handlerCore_eq_pine (deps : Deps) (q : List Char)
    (hist : List (List Char × List Char)) (rdocs : List Doc) (a : List Char)
    (hq : q ≠ []) (hr : deps.retrieve (sanitize q) = Except.ok rdocs)
    (ha : pineconeAnswer deps (contextOf (relevantOf (sanitize q) rdocs)) (pastOf hist)
      (sanitize q) = Except.ok a)
    (hne : a ≠ []) :
    handlerCore deps "POST".toList q hist =
      (ChatResult.ok a ((relevantOf (sanitize q) rdocs).take 5), false) := by
  unfold handlerCore
  rw [if_neg (by simp), if_neg (by simp [List.isEmpty_eq_false.mpr hq])]
  rw [hr]
  simp only []
  rw [ha]
  simp only []
  rw [if_neg (by simp [List.isEmpty_eq_false.mpr hne])]

theorem handlerCore_eq_fallback (deps : Deps) (q : List Char)
    (hist : List (List Char × List Char)) (rdocs : List Doc) (us : List (List Char))
    (hq : q ≠ []) (hr : deps.retrieve (sanitize q) = Except.ok rdocs)
    (ha : pineconeAnswer deps (contextOf (relevantOf (sanitize q) rdocs)) (pastOf hist)
      (sanitize q) = Except.ok [])
    (hc : crawlAll deps.web urlsToVisit 50 = some us) :
    handlerCore deps "POST".toList q hist =
      (match deps.model (webPrompt
          (combineDocumentsFn (fetchMultiplePages deps.pageText us) sepNlNl)
          (pastOf hist) (sanitize q)) with
       | Except.error e => (ChatResult.serverError e, true)
       | Except.ok a2 =>
          (ChatResult.ok a2 ((relevantOf (sanitize q) rdocs).take 5), true)) := by
  unfold handlerCore
  rw [if_neg (by simp), if_neg (by simp [List.isEmpty_eq_false.mpr hq])]
  rw [hr]
  simp only []
  rw [ha]
  simp only []
  rw [if_pos (by simp)]
  rw [hc]

theorem handlerCore_snd_of_empty (deps : Deps) (q : List Char)
    (hist : List (List Char × List Char)) (rdocs : List Doc)
    (hq : q ≠ []) (hr : deps.retrieve (sanitize q) = Except.ok rdocs)
    (ha : pineconeAnswer deps (contextOf (relevantOf (sanitize q) rdocs)) (pastOf hist)
      (sanitize q) = Except.ok []) :
    (handlerCore deps "POST".toList q hist).2 = true := by
  unfold handlerCore
  rw [if_neg (by simp), if_neg (by simp [List.isEmpty_eq_false.mpr hq])]
  rw [hr]
  simp only []
  rw [ha]
  simp only []
  rw [if_pos (by simp)]
  split
  · rfl
  · split
    · rfl
    · rfl

/-! ## Further helper lemmas for the claim theorems -/

theorem relevantOf_subset (sq : List Char) (docs : List Doc) :
    ∀ d ∈ relevantOf sq docs, d ∈ docs := by
  intro d hd
  unfold relevantOf at hd
  obtain ⟨p, hp, hpd⟩ := List.mem_map.mp hd
  have hp2 := (List.mem_filter.mp hp).1
  obtain ⟨d3, hd3, he⟩ := List.mem_map.mp hp2
  rw [← hpd, ← he]
  exact hd3

theorem crawlWebsite_ctf : crawlWebsite ctfSeed 50 webFail = some [ctfSeed] := by
  unfold crawlWebsite
  simp only [show parseURL ctfSeed = some ctfBase from by decide,
    show normalizeUrl ctfBase ctfSeed = some ctfSeed from by decide]
  exact congrArg some (crawlLoopF_sound 2 webFail ctfBase 50 [ctfSeed] [] _ (by decide))

theorem crawlAll_ctf : crawlAll webFail urlsToVisit 50 = some [ctfSeed] := by
  show (match crawlWebsite "https://www.codesfortomorrow.com".toList 50 webFail,
      crawlAll webFail [] 50 with
    | some us, some rest => some (us ++ rest)
    | _, _ => none) = some [ctfSeed]
  rw [show crawlWebsite "https://www.codesfortomorrow.com".toList 50 webFail =
    some [ctfSeed] from crawlWebsite_ctf]
  rfl

/-! ## Claim theorems -/

/-- C1 (counterexample): the crawl guarantee fails as stated.  Crawling seed
`https://example.com` with budget 3 over a web whose seed page links to
`https://example.com.evil.org/x` visits that link: the string passes the
`startsWith(origin)` check of chat.ts line 85 although its origin
(`https://example.com.evil.org`) differs from the seed origin
(`https://example.com`), so the returned set contains a URI outside the seed
origin authority. -/
theorem C1_origin_counterexample :
    crawlWebsite seedEx 3 webEvil = some [seedEx, evilN] ∧
    parseURL seedEx = some baseEx ∧
    parseURL evilN =
      some ⟨"https".toList, "example.com.evil.org".toList, "/x".toList, [], []⟩ ∧
    originStr ⟨"https".toList, "example.com.evil.org".toList, "/x".toList, [], []⟩ ≠
      originStr baseEx ∧
    evilN ∈ [seedEx, evilN] := by
  have h1 : parseURL seedEx = some baseEx := by decide
  have h2 : normalizeUrl baseEx seedEx = some seedEx := by decide
  refine ⟨?_, h1, by decide, by decide, by decide⟩
  unfold crawlWebsite
  simp only [h1, h2]
  exact congrArg some (crawlLoopF_sound 3 webEvil baseEx 3 [seedEx] [] _ (by decide))

/-- C1 (amended): for every parseable seed and budget, the returned set has at
most `maxPages` elements and every returned URI starts with the seed origin
STRING; likewise every URI the link loop adds to the queue is either already
queued or starts with the origin string.  (The source checks
`nUrl.startsWith(origin)`, a string-prefix test, so a URI of a different
origin whose text extends the origin string is admitted — see
`C1_origin_counterexample`.) -/
theorem C1_crawl_budget_and_origin :
    ∀ (startUrl : List Char) (maxPages : Nat)
      (web : List Char → Option (List (List Char))) (base : URLparts)
      (result : List (List Char)),
      parseURL startUrl = some base →
      crawlWebsite startUrl maxPages web = some result →
      result.length ≤ maxPages ∧
      (∀ u ∈ result, originStr base <+: u) ∧
      (∀ visited tv links x, x ∈ addLinks base visited tv links →
        x ∈ tv ∨ originStr base <+: x) := by
  intro startUrl m web base result hp hc
  unfold crawlWebsite at hc
  simp only [hp] at hc
  cases hn : normalizeUrl base startUrl with
  | none =>
    simp only [hn] at hc
    injection hc with hc
    subst hc
    exact ⟨by simp, by simp, fun v tv links x hx => addLinks_mem links tv x hx⟩
  | some s0 =>
    simp only [hn] at hc
    injection hc with hc
    have hwf := parseURL_wf hp
    have hq : ∀ u ∈ [startUrl], ∀ n, normalizeUrl base u = some n →
        originStr base <+: n := by
      intro u hu n hnn
      rw [List.mem_singleton.mp hu] at hnn
      obtain ⟨n2, hn2, hp2⟩ := normalize_of_parse hp
      rw [hnn] at hn2
      injection hn2 with hn2
      rw [hn2]
      exact hp2
    have hinv := crawlLoop_inv web base m hwf [startUrl] []
      (by simp) (by simp) hq
    rw [hc] at hinv
    exact ⟨hinv.2, hinv.1, fun v tv links x hx => addLinks_mem links tv x hx⟩

/-- C1 (witness): the amended statement applied to the concrete seed
`https://example.com` with budget 2 over a linkless web. -/
theorem C1_crawl_budget_and_origin_witness :
    parseURL seedEx = some baseEx ∧
    crawlWebsite seedEx 2 webEmpty = some [seedEx] ∧
    ([seedEx].length ≤ 2 ∧ (∀ u ∈ [seedEx], originStr baseEx <+: u) ∧
      (∀ visited tv links x, x ∈ addLinks baseEx visited tv links →
        x ∈ tv ∨ originStr baseEx <+: x)) := by
  have h1 : parseURL seedEx = some baseEx := by decide
  have h2 : crawlWebsite seedEx 2 webEmpty = some [seedEx] := by
    unfold crawlWebsite
    simp only [h1, show normalizeUrl baseEx seedEx = some seedEx from by decide]
    exact congrArg some (crawlLoopF_sound 2 webEmpty baseEx 2 [seedEx] [] _ (by decide))
  exact ⟨h1, h2, C1_crawl_budget_and_origin seedEx 2 webEmpty baseEx [seedEx] h1 h2⟩

/-- C2 (counterexample): the fallback is NOT driven by emptiness of the
relevant set alone.  With a stubbed index returning a passage that scores
above the threshold (so the relevant set is nonempty) but a model that
answers the empty string, the crawl stage still runs (chat.ts line 269 tests
the generated answer, not the relevant set). -/
theorem C2_fallback_despite_relevant_counterexample :
    relevantOf (sanitize "cat".toList) [⟨"the cat sat".toList⟩] =
      [⟨"the cat sat".toList⟩] ∧
    0 < score (sanitize "cat".toList) "the cat sat".toList ∧
    (handlerCore depsEmptyModel "POST".toList "cat".toList []).2 = true := by
  refine ⟨by decide, by decide, ?_⟩
  exact handlerCore_snd_of_empty depsEmptyModel "cat".toList []
    [⟨"the cat sat".toList⟩] (by decide) rfl rfl

/-- C2 (amended): the fallback crawl stage runs exactly when the
Pinecone-stage answer is the empty string.  An empty relevant set guarantees
this (the context is empty, so no model call happens and the answer stays
empty); a nonempty relevant set prevents the crawl only when the
Pinecone-stage model answer is nonempty — a model returning the empty string
triggers the crawl despite relevant passages. -/
theorem C2_fallback_iff_empty_answer :
    ∀ (deps : Deps) (q : List Char) (hist : List (List Char × List Char))
      (rdocs : List Doc),
      q ≠ [] →
      deps.retrieve (sanitize q) = Except.ok rdocs →
      ((relevantOf (sanitize q) rdocs = [] →
          (handlerCore deps "POST".toList q hist).2 = true) ∧
       (∀ a, pineconeAnswer deps (contextOf (relevantOf (sanitize q) rdocs))
            (pastOf hist) (sanitize q) = Except.ok a →
          ((handlerCore deps "POST".toList q hist).2 = true ↔ a = []))) := by
  intro deps q hist rdocs hq hr
  constructor
  · intro hrel
    apply handlerCore_snd_of_empty deps q hist rdocs hq hr
    rw [hrel]
    rfl
  · intro a ha
    constructor
    · intro htrue
      by_contra hne
      rw [handlerCore_eq_pine deps q hist rdocs a hq hr ha hne] at htrue
      exact absurd htrue (by simp)
    · intro hae
      subst hae
      exact handlerCore_snd_of_empty deps q hist rdocs hq hr ha

/-- C2 (witness): the amended statement applied to concrete dependencies with
eight relevant passages. -/
theorem C2_fallback_iff_empty_answer_witness :
    ("big cat".toList ≠ ([] : List Char)) ∧
    depsEight.retrieve (sanitize "big cat".toList) = Except.ok docs8 ∧
    ((relevantOf (sanitize "big cat".toList) docs8 = [] →
        (handlerCore depsEight "POST".toList "big cat".toList []).2 = true) ∧
     (∀ a, pineconeAnswer depsEight
          (contextOf (relevantOf (sanitize "big cat".toList) docs8))
          (pastOf []) (sanitize "big cat".toList) = Except.ok a →
        ((handlerCore depsEight "POST".toList "big cat".toList []).2 = true ↔
          a = []))) :=
  ⟨by decide, rfl,
    C2_fallback_iff_empty_answer depsEight "big cat".toList [] docs8 (by decide) rfl⟩

/-- C3 (confirmed): for `overlap < chunkSize` the chunk loop terminates within
`text.length + 1` iterations and emits exactly the windows at offsets
`k * (chunkSize - overlap)` below the text length — each window is
`substring(off, off + chunkSize)` (so its length is the minimum of `chunkSize`
and the remaining text) — keeping precisely those longer than 100 characters;
start offsets strictly increase, and a text of length 50 yields the empty
sequence. -/
theorem C3_chunk_windows :
    ∀ (text : List Char) (cs ov : Nat), ov < cs →
    ∃ L, chunkLoopFuel text (cs : Int) (ov : Int) 0 (text.length + 1) = some L ∧
      (∀ e ∈ L, ∃ k : Nat, e.1 = ((k * (cs - ov) : Nat) : Int) ∧
        k * (cs - ov) < text.length ∧
        e.2 = (text.drop (k * (cs - ov))).take cs ∧ 100 < e.2.length) ∧
      (∀ k : Nat, k * (cs - ov) < text.length →
        100 < ((text.drop (k * (cs - ov))).take cs).length →
        (((k * (cs - ov) : Nat) : Int), (text.drop (k * (cs - ov))).take cs) ∈ L) ∧
      L.Pairwise (fun a b => a.1 < b.1) ∧
      (text.length = 50 → L = []) := by
  intro text cs ov hov
  obtain ⟨L, hL, hmem, hpair⟩ :=
    chunkLoopFuel_char text cs ov hov (text.length + 1) 0 (by omega)
  refine ⟨L, by simpa using hL, ?_, ?_, hpair, ?_⟩
  · intro e he
    obtain ⟨k, h1, h2, h3, h4⟩ := (hmem e.1 e.2).mp (by simpa using he)
    exact ⟨k, by simpa using h1, by simpa using h2, by simpa using h3, h4⟩
  · intro k hk hlen
    exact (hmem (((k * (cs - ov) : Nat)) : Int)
      ((text.drop (k * (cs - ov))).take cs)).mpr
      ⟨k, by simp, by simpa using hk, by simp, hlen⟩
  · intro h50
    cases hL0 : L with
    | nil => rfl
    | cons e L2 =>
      exfalso
      have he : e ∈ L := by rw [hL0]; simp
      obtain ⟨k, -, h2, h3, h4⟩ := (hmem e.1 e.2).mp (by simpa using he)
      rw [h3] at h4
      have hle : ((text.drop (0 + k * (cs - ov))).take cs).length ≤ 50 := by
        simp only [List.length_take, List.length_drop]
        omega
      omega

/-- C3 (witness): the statement applied to a 50-character text with
`chunkSize = 1000`, `overlap = 200`; the loop returns the empty sequence. -/
theorem C3_chunk_windows_witness :
    (200 : Nat) < 1000 ∧
    ∃ L, chunkLoopFuel (List.replicate 50 'a') ((1000 : Nat) : Int)
        ((200 : Nat) : Int) 0 ((List.replicate 50 'a').length + 1) = some L ∧
      L = [] := by
  obtain ⟨L, hL, -, -, -, h50⟩ :=
    C3_chunk_windows (List.replicate 50 'a') 1000 200 (by decide)
  exact ⟨by decide, L, hL, h50 (by decide)⟩

/-- C4 (counterexample): the score is not a count of DISTINCT terms.  For the
question `cat cat` against content `a cat`, the source counts the duplicated
token twice: the score is 2 while the distinct-term count is 1. -/
theorem C4_score_duplicate_counterexample :
    score "cat cat".toList "a cat".toList = 2 ∧
    specScoreDistinct "cat cat".toList "a cat".toList = 1 ∧
    score "cat cat".toList "a cat".toList ≠
      specScoreDistinct "cat cat".toList "a cat".toList := by
  exact ⟨by decide, by decide, by decide⟩

/-- C4 (amended): the score counts qualifying question tokens WITH
multiplicity: it equals the number of whitespace tokens of the lowercased
question that are longer than one character and occur in the lowercased
content, duplicates counted each time.  The distinct-term count never exceeds
it, and the two agree exactly when the qualifying tokens are duplicate-free. -/
theorem C4_score_multiplicity :
    ∀ q p : List Char,
      score q p = (qualTokens q p).length ∧
      specScoreDistinct q p ≤ score q p ∧
      ((qualTokens q p).Nodup → score q p = specScoreDistinct q p) := by
  intro q p
  refine ⟨rfl, ?_, ?_⟩
  · exact (List.dedup_sublist _).length_le
  · intro hnd
    unfold score specScoreDistinct
    rw [List.dedup_eq_self.mpr hnd]

/-- C4 (witness): the amended statement at a duplicate-free question. -/
theorem C4_score_multiplicity_witness :
    (qualTokens "big cat".toList "big cat here".toList).Nodup ∧
    score "big cat".toList "big cat here".toList =
      specScoreDistinct "big cat".toList "big cat here".toList :=
  ⟨by decide, (C4_score_multiplicity "big cat".toList "big cat here".toList).2.2 (by decide)⟩

/-- C5 (counterexample): invoked with `overlap = chunkSize = 1` on the
two-character text `ab`, the chunk loop neither returns nor raises any
configuration error: after 200 iterations, and still after 500, the loop is
still running (the index never advances), refuting the claim that the chunker
fails with an InvalidConfiguration error rather than looping without
progress — the source has no such validation. -/
theorem C5_chunk_loops_counterexample :
    chunkLoopFuel "ab".toList 1 1 0 200 = none ∧
    chunkLoopFuel "ab".toList 1 1 0 500 = none := by
  exact ⟨by decide, by decide⟩

/-- C5 (amended): with `overlap >= chunkSize` on a nonempty text the chunk
loop makes no progress and never returns normally: for every iteration bound
the loop is still unfinished.  No InvalidConfiguration error is raised — the
code performs no parameter validation (its hardcoded call sites use 1000/200,
which satisfy `overlap < chunkSize`). -/
theorem C5_chunk_no_progress :
    ∀ (text : List Char) (cs ov : Int), cs ≤ ov → text ≠ [] →
    ∀ fuel, chunkLoopFuel text cs ov 0 fuel = none := by
  intro text cs ov hb hne fuel
  exact chunkLoopFuel_bad text cs ov hb hne fuel 0 le_rfl

/-- C5 (witness): the amended statement at `text = a`, `chunkSize = overlap = 1`,
iteration bound 5. -/
theorem C5_chunk_no_progress_witness :
    (1 : Int) ≤ 1 ∧ "a".toList ≠ [] ∧
    chunkLoopFuel "a".toList 1 1 0 5 = none :=
  ⟨le_rfl, by decide, C5_chunk_no_progress "a".toList 1 1 le_rfl (by decide) 5⟩

/-- C6 (confirmed): when fetching a page fails (`web n = none`, the `catch` of
chat.ts line 96), the crawl marks the normalized URI visited and continues
with the remaining queue — the run from the failing state equals the run from
the remaining queue with the URI appended to the visited set, and the URI is
in the final result (so it is never retried: a queued duplicate is skipped by
the `visited.has` check).  Moreover whether `crawlWebsite` produces a result
at all depends only on the seed parsing, never on page failures: no per-page
failure surfaces to the caller. -/
theorem C6_crawl_page_failure_recovery :
    ∀ (web : List Char → Option (List (List Char))) (base : URLparts) (m : Nat)
      (url : List Char) (rest visited : List (List Char)) (n : List Char),
      visited.length < m →
      normalizeUrl base url = some n →
      n ∉ visited →
      web n = none →
      (crawlLoop web base m (url :: rest) visited =
        crawlLoop web base m rest (visited ++ [n]) ∧
       n ∈ crawlLoop web base m (url :: rest) visited) ∧
      (∀ (s : List Char) (m2 : Nat) (web2 : List Char → Option (List (List Char))),
        (crawlWebsite s m2 web2).isSome = (parseURL s).isSome) := by
  intro web base m url rest visited n hm hn hv hw
  refine ⟨⟨crawlLoop_fail hm hn hv hw, ?_⟩, ?_⟩
  · rw [crawlLoop_fail hm hn hv hw]
    exact crawlLoop_mono web base m rest (visited ++ [n]) n (by simp)
  · intro s m2 web2
    unfold crawlWebsite
    cases hp : parseURL s with
    | none => simp
    | some u =>
      obtain ⟨n2, hn2, -⟩ := normalize_of_parse hp
      simp [hn2]

/-- C6 (witness): the statement applied to a concrete failing fetch of the
seed page. -/
theorem C6_crawl_page_failure_recovery_witness :
    ([] : List (List Char)).length < 2 ∧
    normalizeUrl baseEx seedEx = some seedEx ∧
    seedEx ∉ ([] : List (List Char)) ∧
    webFail seedEx = none ∧
    ((crawlLoop webFail baseEx 2 [seedEx] [] =
        crawlLoop webFail baseEx 2 [] ([] ++ [seedEx]) ∧
      seedEx ∈ crawlLoop webFail baseEx 2 [seedEx] []) ∧
     (∀ (s : List Char) (m2 : Nat) (web2 : List Char → Option (List (List Char))),
        (crawlWebsite s m2 web2).isSome = (parseURL s).isSome)) :=
  ⟨by decide, by decide, by decide, rfl,
    C6_crawl_page_failure_recovery webFail baseEx 2 seedEx [] [] seedEx
      (by decide) (by decide) (by decide) rfl⟩

/-- C7 (confirmed): the crawl loop terminates — for every state some finite
iteration bound makes the fuel-indexed loop return the loop value — and it
stops exactly at the source conditions: an empty queue returns the visited
set, and a visited count at or above the budget returns the visited set. -/
theorem C7_crawl_termination :
    ∀ (web : List Char → Option (List (List Char))) (base : URLparts) (m : Nat)
      (tv v : List (List Char)),
      (∃ fuel, crawlLoopF web base m tv v fuel = some (crawlLoop web base m tv v)) ∧
      (tv = [] → crawlLoop web base m tv v = v) ∧
      (m ≤ v.length → crawlLoop web base m tv v = v) := by
  intro web base m tv v
  refine ⟨crawlLoop_exists_fuel web base m tv v, ?_, ?_⟩
  · rintro rfl
    exact crawlLoop_nil web base m v
  · intro hm
    cases tv with
    | nil => exact crawlLoop_nil web base m v
    | cons url rest => exact crawlLoop_stop (by omega)

/-- C7 (witness): the stop conditions applied to concrete states: an empty
queue, and a full visited set with a nonempty queue. -/
theorem C7_crawl_termination_witness :
    (([] : List (List Char)) = [] ∧ (2 : Nat) ≤ [seedEx, evilN].length) ∧
    crawlLoop webEmpty baseEx 2 [] [seedEx] = [seedEx] ∧
    crawlLoop webEmpty baseEx 2 [seedEx] [seedEx, evilN] = [seedEx, evilN] :=
  ⟨⟨rfl, by decide⟩,
    (C7_crawl_termination webEmpty baseEx 2 [] [seedEx]).2.1 rfl,
    (C7_crawl_termination webEmpty baseEx 2 [seedEx] [seedEx, evilN]).2.2 (by decide)⟩

/-- C8 (confirmed): every 200 response carries at most 5 source documents —
the handler returns `relevantDocs.slice(0, 5)` (chat.ts line 301) — and when
the relevant set has at least 8 passages the response carries exactly the
first 5 of them. -/
theorem C8_source_documents_at_most_five :
    ∀ (deps : Deps) (method q : List Char) (hist : List (List Char × List Char))
      (text : List Char) (docs : List Doc) (b : Bool),
      handlerCore deps method q hist = (ChatResult.ok text docs, b) →
      docs.length ≤ 5 ∧
      (∀ rdocs, deps.retrieve (sanitize q) = Except.ok rdocs →
        docs = (relevantOf (sanitize q) rdocs).take 5 ∧
        (8 ≤ (relevantOf (sanitize q) rdocs).length → docs.length = 5)) := by
  intro deps method q hist text docs b h
  obtain ⟨rdocs0, hr0, hd0⟩ := handlerCore_ok_inv h
  constructor
  · rw [hd0]
    exact List.length_take_le 5 _
  · intro rdocs hr
    rw [hr] at hr0
    injection hr0 with hr0
    subst hr0
    refine ⟨hd0, fun h8 => ?_⟩
    rw [hd0, List.length_take]
    omega

/-- C8 (witness): a 200 response assembled from eight relevant passages
carries exactly the first five. -/
theorem C8_source_documents_at_most_five_witness :
    handlerCore depsEight "POST".toList "big cat".toList [] =
      (ChatResult.ok "yes".toList (docs8.take 5), false) ∧
    depsEight.retrieve (sanitize "big cat".toList) = Except.ok docs8 ∧
    8 ≤ (relevantOf (sanitize "big cat".toList) docs8).length ∧
    ((docs8.take 5).length ≤ 5 ∧
      docs8.take 5 = (relevantOf (sanitize "big cat".toList) docs8).take 5 ∧
      (docs8.take 5).length = 5) := by
  have hh : handlerCore depsEight "POST".toList "big cat".toList [] =
      (ChatResult.ok "yes".toList (docs8.take 5), false) := by decide
  have h := C8_source_documents_at_most_five depsEight "POST".toList
    "big cat".toList [] "yes".toList (docs8.take 5) false hh
  exact ⟨hh, rfl, by decide,
    h.1, (h.2 docs8 rfl).1, (h.2 docs8 rfl).2 (by decide)⟩

/-- C9 (confirmed): the scorer is a pure function and is case-symmetric in the
question: scoring a question equals scoring its lowercased form, and in
particular `score "Hello World"` and `score "hello world"` agree on every
passage. -/
theorem C9_score_case_symmetric :
    (∀ q p : List Char, score (toLowerL q) p = score q p) ∧
    (∀ p : List Char,
      score "Hello World".toList p = score "hello world".toList p) := by
  have h1 : ∀ q p : List Char, score (toLowerL q) p = score q p := by
    intro q p
    unfold score qualTokens
    rw [toLowerL_idem]
  refine ⟨h1, fun p => ?_⟩
  have h2 : toLowerL "Hello World".toList = "hello world".toList := by decide
  calc score "Hello World".toList p
      = score (toLowerL "Hello World".toList) p := (h1 "Hello World".toList p).symm
    _ = score "hello world".toList p := by rw [h2]

/-- C10 (confirmed): the 200 response draws its source documents exclusively
from the Pinecone-derived relevant set computed before any fallback:
`sourceDocuments` is always the first five of that set and every element
belongs to the retrieved documents, so web-crawled chunks never appear there;
when the relevant set is empty the response documents are empty — and there
is a run in which the fallback produced a nonempty answer from web context
while `sourceDocuments` is empty. -/
theorem C10_source_documents_frame :
    ∀ (deps : Deps) (method q : List Char) (hist : List (List Char × List Char))
      (text : List Char) (docs : List Doc) (b : Bool) (rdocs : List Doc),
      handlerCore deps method q hist = (ChatResult.ok text docs, b) →
      deps.retrieve (sanitize q) = Except.ok rdocs →
      (docs = (relevantOf (sanitize q) rdocs).take 5 ∧
       (∀ d ∈ docs, d ∈ rdocs) ∧
       (relevantOf (sanitize q) rdocs = [] → docs = []) ∧
       (∃ (deps2 : Deps) (q2 t2 : List Char),
          handlerCore deps2 "POST".toList q2 [] = (ChatResult.ok t2 [], true) ∧
          t2 ≠ [])) := by
  intro deps method q hist text docs b rdocs h hr
  obtain ⟨rdocs0, hr0, hd0⟩ := handlerCore_ok_inv h
  rw [hr] at hr0
  injection hr0 with hr0
  subst hr0
  refine ⟨hd0, ?_, ?_, ?_⟩
  · intro d hd
    rw [hd0] at hd
    exact relevantOf_subset (sanitize q) rdocs d (List.take_subset 5 _ hd)
  · intro hrel
    rw [hd0, hrel]
    rfl
  · refine ⟨depsWebAnswer, "anything".toList, "answer from web".toList, ?_, by decide⟩
    have hfall := handlerCore_eq_fallback depsWebAnswer "anything".toList [] [] [ctfSeed]
      (by decide) rfl rfl crawlAll_ctf
    rw [hfall]
    rfl

/-- C10 (witness): the statement applied to a concrete index-answered run. -/
theorem C10_source_documents_frame_witness :
    handlerCore depsEight "POST".toList "big cat".toList [] =
      (ChatResult.ok "yes".toList (docs8.take 5), false) ∧
    depsEight.retrieve (sanitize "big cat".toList) = Except.ok docs8 ∧
    (docs8.take 5 = (relevantOf (sanitize "big cat".toList) docs8).take 5 ∧
     (∀ d ∈ docs8.take 5, d ∈ docs8) ∧
     (relevantOf (sanitize "big cat".toList) docs8 = [] → docs8.take 5 = []) ∧
     (∃ (deps2 : Deps) (q2 t2 : List Char),
        handlerCore deps2 "POST".toList q2 [] = (ChatResult.ok t2 [], true) ∧
        t2 ≠ [])) := by
  have hh : handlerCore depsEight "POST".toList "big cat".toList [] =
      (ChatResult.ok "yes".toList (docs8.take 5), false) := by decide
  exact ⟨hh, rfl,
    C10_source_documents_frame depsEight "POST".toList "big cat".toList []
      "yes".toList (docs8.take 5) false docs8 hh rfl⟩
